import Mathlib

/-!
Verification of the corpus test parser (scripts/corpus-parser.js) and its
validator. The definitions below are a shallow embedding of the JavaScript
class CorpusParser: strings are Lean strings, the per-line loop becomes a
step function over an explicit parser state, JavaScript exceptions become
an Except error, and the external grammar engine becomes a function
argument returning Except.
-/

namespace CorpusSpec

/-- Whitespace test matching the JavaScript regex class \s and String.trim:
ASCII whitespace, NBSP, Unicode space separators, line/paragraph separator
and the BOM. -/
def jsWs (c : Char) : Bool :=
  c == ' ' || c == '\t' || c == '\n' || c == '\x0b' || c == '\x0c' || c == '\r' ||
  c == '\u00A0' || c == '\u1680' || ('\u2000' ≤ c && c ≤ '\u200A') ||
  c == '\u2028' || c == '\u2029' || c == '\u202F' || c == '\u205F' ||
  c == '\u3000' || c == '\uFEFF'

/-- Embedding of JavaScript String.prototype.startsWith: the first argument
is the needle, the second the character list of the string. -/
def strStartsWith : List Char → List Char → Bool
  | [], _ => true
  | _ :: _, [] => false
  | p :: ps, c :: cs => p == c && strStartsWith ps cs

/-- Embedding of content.split('\n'): split a character list at every
newline; the empty list yields one empty line, like "".split('\n'). -/
def splitLines : List Char → List (List Char)
  | [] => [[]]
  | c :: rest =>
    if c = '\n' then [] :: splitLines rest
    else
      match splitLines rest with
      | [] => [[c]]
      | l :: ls => (c :: l) :: ls

/-- The list of lines of a corpus content string, as in the JavaScript
content.split('\n'). -/
def linesOf (content : String) : List String :=
  (splitLines content.data).map fun l => ⟨l⟩

/-- Embedding of String.prototype.trim on character lists: drop whitespace
from both ends. -/
def trimChars (l : List Char) : List Char :=
  ((l.dropWhile jsWs).reverse.dropWhile jsWs).reverse

/-- Embedding of String.prototype.trim. -/
def jsTrim (s : String) : String := ⟨trimChars s.data⟩

/-- Embedding of tree.replace(/\s+/g, ' '): every maximal run of whitespace
characters is replaced by a single space. Each whitespace character that is
followed by another whitespace character is dropped; the last character of
a run becomes one space. -/
def collapseWs : List Char → List Char
  | [] => []
  | [c] => if jsWs c then [' '] else [c]
  | a :: b :: rest =>
    if jsWs a && jsWs b then collapseWs (b :: rest)
    else (if jsWs a then ' ' else a) :: collapseWs (b :: rest)

/-- Embedding of CorpusParser.normalizeTree:
tree.replace(/\s+/g, ' ').trim(). -/
def normalizeTree (s : String) : String :=
  ⟨trimChars (collapseWs s.data)⟩

/-- One step of the non-whitespace run decomposition: extend the runs ts of
rest by a new head character c. -/
def joinTok (c : Char) (rest : List Char) (ts : List (List Char)) : List (List Char) :=
  if jsWs c then ts
  else
    match rest with
    | [] => [[c]]
    | d :: _ =>
      if jsWs d then [c] :: ts
      else
        match ts with
        | [] => [[c]]
        | t :: ts2 => (c :: t) :: ts2

/-- The maximal runs of non-whitespace characters of a string, in order.
Two strings that differ only in whitespace (same non-whitespace characters
separated by whitespace runs at the same positions) have the same runs. -/
def wsTokens : List Char → List (List Char)
  | [] => []
  | c :: rest => joinTok c rest (wsTokens rest)

/-- Join a list of character runs with single spaces between them. -/
def joinSp : List (List Char) → List Char
  | [] => []
  | [t] => t
  | t :: ts => t ++ ' ' :: joinSp ts

/-- Embedding of line.replace(/^===+\s*/, '') (marker m = '='): if the line
starts with at least three marker characters, drop the whole leading marker
run and the whitespace following it. -/
def stripLeadingMarker (m : Char) (l : List Char) : List Char :=
  if 3 ≤ (l.takeWhile (fun c => c == m)).length then
    (l.dropWhile (fun c => c == m)).dropWhile jsWs
  else l

/-- Embedding of .replace(/\s*===+$/, '') (marker m = '='): if the line ends
with at least three marker characters, drop the whole trailing marker run
and the whitespace immediately before it. -/
def stripTrailingMarker (m : Char) (l : List Char) : List Char :=
  if 3 ≤ (l.reverse.takeWhile (fun c => c == m)).length then
    ((l.reverse.dropWhile (fun c => c == m)).dropWhile jsWs).reverse
  else l

/-- Header name extraction of CorpusParser.parse:
line.replace(/^===+\s*/, '').replace(/\s*===+$/, '') with marker m. -/
def headerName (m : Char) (l : String) : String :=
  ⟨stripTrailingMarker m (stripLeadingMarker m l.data)⟩

/-- Test for line.startsWith('==='). -/
def lineIsSectionHeader (l : String) : Bool :=
  strStartsWith ['=', '=', '='] l.data

/-- Test for line.startsWith('---'). -/
def lineIsExampleHeader (l : String) : Bool :=
  strStartsWith ['-', '-', '-'] l.data

/-- Test for line.trim().startsWith('('). -/
def trimmedStartsWithParen (l : String) : Bool :=
  match (jsTrim l).data with
  | c :: _ => c == '('
  | [] => false

/-- Metadata of a section, from the object literal in CorpusParser.parse. -/
structure SectionMeta where
  filepath : Option String
  header : String
  line : Nat
  headerText : String
  description : String
deriving Repr, DecidableEq

/-- Metadata of an example, from the object literal in CorpusParser.parse. -/
structure ExampleMeta where
  line : Nat
  inputCode : String
  treeText : String
  separator : String
deriving Repr, DecidableEq

/-- An example record: name, source text, expected tree text, metadata. -/
structure Example where
  name : String
  source : String
  tree : String
  metadata : ExampleMeta
deriving Repr, DecidableEq

/-- A section record: name, examples, metadata. -/
structure Section where
  name : String
  examples : List Example
  metadata : SectionMeta
deriving Repr, DecidableEq

/-- The mutable locals of CorpusParser.parse plus the instance field
this.sections. currentSection is kept separately from completed; the
JavaScript array this.sections corresponds to
completed ++ currentSection.toList. -/
structure ParseState where
  completed : List Section
  currentSection : Option Section
  currentExample : Option Example
  parsingSource : Bool
  parsingTree : Bool
deriving Repr, DecidableEq

/-- The one runtime fault the parser can raise: dereferencing the null
currentSection when pushing an open example. -/
inductive JSError where
  | typeError
deriving Repr, DecidableEq

/-- A fresh loop state over a previously accumulated this.sections list. -/
def initState (prior : List Section) : ParseState :=
  { completed := prior
    currentSection := none
    currentExample := none
    parsingSource := false
    parsingTree := false }

/-- Description collection of CorpusParser.parse: while a section is open,
no example has started, and the line is non-blank and not an example
header, append the line and a newline to the section description. -/
def appendDescription (s : ParseState) (line : String) : ParseState :=
  match s.currentSection with
  | none => s
  | some sec =>
    if s.currentExample = none ∧ jsTrim line ≠ "" ∧ ¬ lineIsExampleHeader line then
      { s with currentSection := some { sec with metadata :=
          { sec.metadata with description := sec.metadata.description ++ line ++ "\n" } } }
    else s

/-- A fresh example created at an example header line (0-based index i). -/
def newExample (line : String) (i : Nat) : Example :=
  { name := headerName '-' line
    source := ""
    tree := ""
    metadata := { line := i + 1, inputCode := "", treeText := "", separator := line } }

/-- One iteration of the for-loop of CorpusParser.parse on line with
0-based index i. -/
def step (fp : Option String) (i : Nat) (s : ParseState) (line : String) :
    Except JSError ParseState :=
  if lineIsSectionHeader line then
    let flushed : Option Section :=
      match s.currentSection, s.currentExample with
      | some sec, some ex => some { sec with examples := sec.examples ++ [ex] }
      | some sec, none => some sec
      | none, _ => none
    let name := headerName '=' line
    let newSec : Section :=
      { name := name
        examples := []
        metadata :=
          { filepath := fp, header := name, line := i + 1, headerText := line
            description := "" } }
    .ok { completed := s.completed ++ flushed.toList
          currentSection := some newSec
          currentExample := none
          parsingSource := s.parsingSource
          parsingTree := s.parsingTree }
  else
    let s1 := appendDescription s line
    if lineIsExampleHeader line then
      match s1.currentExample with
      | some ex =>
        match s1.currentSection with
        | none => .error .typeError
        | some sec =>
          .ok { s1 with
                currentSection := some { sec with examples := sec.examples ++ [ex] }
                currentExample := some (newExample line i)
                parsingSource := true
                parsingTree := false }
      | none =>
        .ok { s1 with
              currentExample := some (newExample line i)
              parsingSource := true
              parsingTree := false }
    else
      match s1.currentExample with
      | none => .ok s1
      | some ex =>
        if ex.source = "" ∧ jsTrim line = "" then .ok s1
        else if s1.parsingSource && trimmedStartsWithParen line then
          .ok { s1 with
                currentExample := some
                  { ex with
                    tree := ex.tree ++ line ++ "\n"
                    metadata :=
                      { ex.metadata with
                        treeText := ex.metadata.treeText ++ line ++ "\n" } }
                parsingSource := false, parsingTree := true }
        else if s1.parsingSource then
          .ok { s1 with
                currentExample := some
                  { ex with
                    source := ex.source ++ line ++ "\n"
                    metadata :=
                      { ex.metadata with
                        inputCode := ex.metadata.inputCode ++ line ++ "\n" } }
                parsingSource := s1.parsingSource, parsingTree := s1.parsingTree }
        else if s1.parsingTree then
          .ok { s1 with
                currentExample := some
                  { ex with
                    tree := ex.tree ++ line ++ "\n"
                    metadata :=
                      { ex.metadata with
                        treeText := ex.metadata.treeText ++ line ++ "\n" } }
                parsingSource := s1.parsingSource, parsingTree := s1.parsingTree }
        else
          .ok { s1 with parsingSource := s1.parsingSource, parsingTree := s1.parsingTree }

/-- The for-loop of CorpusParser.parse, starting at 0-based line index i. -/
def runLines (fp : Option String) (i : Nat) (s : ParseState) :
    List String → Except JSError ParseState
  | [] => .ok s
  | l :: ls =>
    match step fp i s l with
    | .error e => .error e
    | .ok s2 => runLines fp (i + 1) s2 ls

/-- The final flush of CorpusParser.parse (push the last open example) and
the reading of this.sections. -/
def finishSections (s : ParseState) : List Section :=
  match s.currentSection, s.currentExample with
  | some sec, some ex => s.completed ++ [{ sec with examples := sec.examples ++ [ex] }]
  | some sec, none => s.completed ++ [sec]
  | none, _ => s.completed

/-- The cleanup pass of CorpusParser.parse on one example: trim source,
tree, inputCode and treeText. -/
def cleanupExample (e : Example) : Example :=
  { e with
    source := jsTrim e.source
    tree := jsTrim e.tree
    metadata :=
      { e.metadata with
        inputCode := jsTrim e.metadata.inputCode
        treeText := jsTrim e.metadata.treeText } }

/-- The cleanup pass of CorpusParser.parse on one section: trim the
description and clean every example. -/
def cleanupSection (sec : Section) : Section :=
  { sec with
    metadata := { sec.metadata with description := jsTrim sec.metadata.description }
    examples := sec.examples.map cleanupExample }

/-- One call of CorpusParser.parse on an instance whose this.sections
currently holds prior. Returns the new this.sections together with the
returned list. An empty content returns [] at once and leaves the instance
untouched; otherwise the loop runs, the last example is flushed, and the
cleanup pass rewrites every accumulated section, which is both the new
field value and the return value. -/
def corpusParseCall (prior : List Section) (fp : Option String) (content : String) :
    Except JSError (List Section × List Section) :=
  if content = "" then .ok (prior, [])
  else
    match runLines fp 0 (initState prior) (linesOf content) with
    | .error e => .error e
    | .ok fin =>
      let all := (finishSections fin).map cleanupSection
      .ok (all, all)

/-- CorpusParser.parse on a fresh instance: the returned section list. -/
def corpusParse (content : String) (fp : Option String) :
    Except JSError (List Section) :=
  (corpusParseCall [] fp content).map (fun p => p.2)

/-- The loop and final flush of CorpusParser.parse on a fresh instance
without the cleanup pass: the raw accumulated buffers. -/
def corpusParseRawSections (content : String) (fp : Option String) :
    Except JSError (List Section) :=
  if content = "" then .ok []
  else
    match runLines fp 0 (initState []) (linesOf content) with
    | .error e => .error e
    | .ok fin => .ok (finishSections fin)

/-- A fault thrown by the external grammar engine. -/
inductive EngineFault where
  | fault : String → EngineFault
deriving Repr, DecidableEq

/-- The metadata object of a validation result entry:
{...section.metadata, ...example.metadata}; the example line number
overwrites the section line number. -/
structure MergedMeta where
  filepath : Option String
  header : String
  line : Nat
  headerText : String
  description : String
  inputCode : String
  treeText : String
  separator : String
deriving Repr, DecidableEq

/-- Spread-merge of section metadata and example metadata. -/
def mergeMeta (sm : SectionMeta) (em : ExampleMeta) : MergedMeta :=
  { filepath := sm.filepath
    header := sm.header
    line := em.line
    headerText := sm.headerText
    description := sm.description
    inputCode := em.inputCode
    treeText := em.treeText
    separator := em.separator }

/-- A passing entry of validateCorpus. -/
structure PassEntry where
  sectionName : String
  exampleName : String
  metadata : MergedMeta
deriving Repr, DecidableEq

/-- A failing entry of validateCorpus: the un-normalized expected and
actual tree strings together with the merged metadata. -/
structure FailEntry where
  sectionName : String
  exampleName : String
  expected : String
  actual : String
  metadata : MergedMeta
deriving Repr, DecidableEq

/-- The { passing, failing } report of validateCorpus. -/
structure ValidationResults where
  passing : List PassEntry
  failing : List FailEntry
deriving Repr, DecidableEq

/-- The entry pushed onto results.passing. -/
def passEntryOf (sec : Section) (ex : Example) : PassEntry :=
  { sectionName := sec.name, exampleName := ex.name
    metadata := mergeMeta sec.metadata ex.metadata }

/-- The entry pushed onto results.failing. -/
def failEntryOf (sec : Section) (ex : Example) (actual : String) : FailEntry :=
  { sectionName := sec.name, exampleName := ex.name
    expected := ex.tree, actual := actual
    metadata := mergeMeta sec.metadata ex.metadata }

/-- The inner loop of validateCorpus over the examples of one section. The
grammar engine g stands for grammar.parse followed by
tree.rootNode.toString(); a thrown engine exception is an Except error and
short-circuits exactly as an uncaught JavaScript exception would. -/
def validateExamples (g : String → Except EngineFault String) (sec : Section)
    (acc : ValidationResults) : List Example → Except EngineFault ValidationResults
  | [] => .ok acc
  | ex :: rest =>
    match g ex.source with
    | .error e => .error e
    | .ok treeString =>
      let acc2 :=
        if normalizeTree treeString = normalizeTree ex.tree then
          { acc with passing := acc.passing ++ [passEntryOf sec ex] }
        else
          { acc with failing := acc.failing ++ [failEntryOf sec ex treeString] }
      validateExamples g sec acc2 rest

/-- The outer loop of validateCorpus over the sections. -/
def validateSectionsAux (g : String → Except EngineFault String)
    (acc : ValidationResults) : List Section → Except EngineFault ValidationResults
  | [] => .ok acc
  | sec :: rest =>
    match validateExamples g sec acc sec.examples with
    | .error e => .error e
    | .ok acc2 => validateSectionsAux g acc2 rest

/-- CorpusParser.validateCorpus on an already parsed section list (reading
the corpus file is I/O glue outside the core). -/
def validateCorpus (g : String → Except EngineFault String)
    (sections : List Section) : Except EngineFault ValidationResults :=
  validateSectionsAux g { passing := [], failing := [] } sections

/-- The flattened (section, example) pairs of a section list, in file
order. -/
def sectionExamplePairs (sections : List Section) : List (Section × Example) :=
  sections.flatMap fun sec => sec.examples.map fun ex => (sec, ex)

/-- Drop trailing whitespace characters. trimChars l is exactly
trimRight (l.dropWhile jsWs). -/
def trimRight (l : List Char) : List Char :=
  (l.reverse.dropWhile jsWs).reverse

/-- The text appended to the tree buffer by a run of non-header lines
while in tree collection mode, given the (frozen) source buffer src: each
line plus a newline, except that blank lines are skipped while src is
empty. -/
def treeAppendLines (src : String) : List String → String
  | [] => ""
  | l :: ls =>
    (if src = "" ∧ jsTrim l = "" then "" else l ++ "\n") ++ treeAppendLines src ls

/-- The Pass/Fail report of validateCorpus for a total engine eng, written
directly as a partition of the flattened (section, example) pairs: an
example passes exactly when the normalized actual rendering equals the
normalized expected tree, and each failing entry carries the un-normalized
strings. -/
def reportOf (eng : String → String) (sections : List Section) : ValidationResults :=
  { passing := ((sectionExamplePairs sections).filter fun p =>
      normalizeTree (eng p.2.source) == normalizeTree p.2.tree).map
        fun p => passEntryOf p.1 p.2
    failing := ((sectionExamplePairs sections).filter fun p =>
      !(normalizeTree (eng p.2.source) == normalizeTree p.2.tree)).map
        fun p => failEntryOf p.1 p.2 (eng p.2.source) }

/-! ### Helper lemmas on takeWhile, dropWhile and trimming -/

theorem length_dropWhile_le (p : Char → Bool) (l : List Char) :
    (l.dropWhile p).length ≤ l.length := by
  induction l with
  | nil => simp [List.dropWhile]
  | cons a as ih =>
    simp only [List.dropWhile]
    split
    · exact Nat.le_succ_of_le ih
    · exact Nat.le_refl _

theorem dropWhile_cons_false {p : Char → Bool} {c : Char} {l : List Char}
    (h : p c = false) : (c :: l).dropWhile p = c :: l := by
  simp [List.dropWhile_cons, h]

theorem dropWhile_head_false (p : Char → Bool) :
    ∀ (l : List Char) (c : Char) (t : List Char), l.dropWhile p = c :: t → p c = false := by
  intro l
  induction l with
  | nil => intro c t h; simp [List.dropWhile] at h
  | cons a as ih =>
    intro c t h
    rw [List.dropWhile_cons] at h
    by_cases hpa : p a
    · rw [if_pos hpa] at h
      exact ih c t h
    · rw [if_neg hpa] at h
      cases h
      exact Bool.eq_false_iff.mpr hpa

theorem dropWhile_idem (p : Char → Bool) (l : List Char) :
    (l.dropWhile p).dropWhile p = l.dropWhile p := by
  cases h : l.dropWhile p with
  | nil => simp
  | cons c t => exact dropWhile_cons_false (dropWhile_head_false p l c t h)

theorem takeWhile_all_sat {p : Char → Bool} :
    ∀ {l : List Char}, (∀ c ∈ l, p c = true) → l.takeWhile p = l := by
  intro l
  induction l with
  | nil => intro _; rfl
  | cons a as ih =>
    intro h
    rw [List.takeWhile_cons, if_pos (h a (List.mem_cons_self a as))]
    rw [ih fun c hc => h c (List.mem_cons_of_mem a hc)]

theorem dropWhile_all_sat {p : Char → Bool} {l : List Char}
    (h : ∀ c ∈ l, p c = true) : l.dropWhile p = [] :=
  List.dropWhile_eq_nil_iff.mpr h

theorem takeWhile_append_sat {p : Char → Bool} :
    ∀ (a b : List Char), (∀ c ∈ a, p c = true) →
      (a ++ b).takeWhile p = a ++ b.takeWhile p := by
  intro a
  induction a with
  | nil => intro b _; rfl
  | cons x xs ih =>
    intro b h
    rw [List.cons_append, List.takeWhile_cons, if_pos (h x (List.mem_cons_self x xs))]
    rw [ih b fun c hc => h c (List.mem_cons_of_mem x hc), List.cons_append]

theorem dropWhile_append_sat {p : Char → Bool} :
    ∀ (a b : List Char), (∀ c ∈ a, p c = true) →
      (a ++ b).dropWhile p = b.dropWhile p := by
  intro a
  induction a with
  | nil => intro b _; rfl
  | cons x xs ih =>
    intro b h
    rw [List.cons_append, List.dropWhile_cons, if_pos (h x (List.mem_cons_self x xs))]
    exact ih b fun c hc => h c (List.mem_cons_of_mem x hc)

theorem dropWhile_append_ne_nil {p : Char → Bool} :
    ∀ (a b : List Char), a.dropWhile p ≠ [] →
      (a ++ b).dropWhile p = a.dropWhile p ++ b := by
  intro a
  induction a with
  | nil => intro b h; exact absurd rfl h
  | cons x xs ih =>
    intro b h
    rw [List.dropWhile_cons] at h
    rw [List.cons_append, List.dropWhile_cons]
    by_cases hx : p x
    · rw [if_pos hx] at h
      rw [if_pos hx, ih b h, List.dropWhile_cons, if_pos hx]
    · rw [if_neg hx, List.dropWhile_cons, if_neg hx, List.cons_append]

theorem trimChars_eq_trimRight (l : List Char) :
    trimChars l = trimRight (l.dropWhile jsWs) := rfl

theorem trimRight_decomp (l : List Char) :
    l = trimRight l ++ (l.reverse.takeWhile jsWs).reverse := by
  have h := List.takeWhile_append_dropWhile jsWs l.reverse
  have h2 := congrArg List.reverse h
  rw [List.reverse_append, List.reverse_reverse] at h2
  exact h2.symm

theorem trimRight_ws_suffix (l : List Char) :
    ∀ c ∈ (l.reverse.takeWhile jsWs).reverse, jsWs c = true := by
  intro c hc
  exact List.mem_takeWhile_imp (List.mem_reverse.mp hc)

theorem trimChars_decomp (l : List Char) :
    ∃ a b, l = a ++ trimChars l ++ b ∧
      (∀ c ∈ a, jsWs c = true) ∧ (∀ c ∈ b, jsWs c = true) := by
  refine ⟨l.takeWhile jsWs, ((l.dropWhile jsWs).reverse.takeWhile jsWs).reverse, ?_, ?_, ?_⟩
  · conv_lhs => rw [← List.takeWhile_append_dropWhile jsWs l]
    rw [trimChars_eq_trimRight, List.append_assoc]
    exact congrArg _ (trimRight_decomp (l.dropWhile jsWs))
  · intro c hc; exact List.mem_takeWhile_imp hc
  · exact trimRight_ws_suffix (l.dropWhile jsWs)

theorem trimChars_head_false (l : List Char) (c : Char) (t : List Char)
    (h : trimChars l = c :: t) : jsWs c = false := by
  have hd : (l.dropWhile jsWs) = trimChars l ++ ((l.dropWhile jsWs).reverse.takeWhile jsWs).reverse := by
    rw [trimChars_eq_trimRight]
    exact trimRight_decomp (l.dropWhile jsWs)
  rw [h, List.cons_append] at hd
  exact dropWhile_head_false jsWs l c _ hd

theorem trimChars_getLast_false (l : List Char) (c : Char)
    (h : (trimChars l).getLast? = some c) : jsWs c = false := by
  have : (trimChars l).getLast? = ((l.dropWhile jsWs).reverse.dropWhile jsWs).head? := by
    rw [trimChars_eq_trimRight]
    unfold trimRight
    rw [List.getLast?_reverse]
  rw [this] at h
  cases hh : (l.dropWhile jsWs).reverse.dropWhile jsWs with
  | nil => rw [hh] at h; simp at h
  | cons d t =>
    rw [hh] at h
    simp only [List.head?_cons, Option.some.injEq] at h
    rw [← h]
    exact dropWhile_head_false jsWs _ d t hh

theorem dropWhile_ws_trimChars (l : List Char) :
    (trimChars l).dropWhile jsWs = trimChars l := by
  cases h : trimChars l with
  | nil => simp
  | cons c t => exact dropWhile_cons_false (trimChars_head_false l c t h)

theorem trimRight_trimChars (l : List Char) :
    trimRight (trimChars l) = trimChars l := by
  rw [trimChars_eq_trimRight]
  unfold trimRight
  rw [List.reverse_reverse, dropWhile_idem]

theorem trimChars_idem (l : List Char) :
    trimChars (trimChars l) = trimChars l := by
  rw [trimChars_eq_trimRight (trimChars l), dropWhile_ws_trimChars]
  exact trimRight_trimChars l

theorem jsTrim_idem (s : String) : jsTrim (jsTrim s) = jsTrim s :=
  congrArg String.mk (trimChars_idem s.data)

/-! ### The normalizer factors through the non-whitespace runs -/

theorem collapseWs_ws_cons :
    ∀ (rest : List Char) (c : Char), jsWs c = true →
      collapseWs (c :: rest) = ' ' :: collapseWs (rest.dropWhile jsWs) := by
  intro rest
  induction rest with
  | nil => intro c h; simp [collapseWs, h, List.dropWhile]
  | cons d ds ih =>
    intro c h
    by_cases hd : jsWs d
    · have h1 : collapseWs (c :: d :: ds) = collapseWs (d :: ds) := by
        simp [collapseWs, h, hd]
      rw [h1, ih d hd, List.dropWhile_cons, if_pos hd]
    · have h1 : collapseWs (c :: d :: ds) = ' ' :: collapseWs (d :: ds) := by
        simp [collapseWs, h, hd]
      rw [h1, List.dropWhile_cons, if_neg hd]

theorem collapseWs_nonws_cons {c : Char} (rest : List Char) (h : jsWs c = false) :
    collapseWs (c :: rest) = c :: collapseWs rest := by
  cases rest with
  | nil => simp [collapseWs, h]
  | cons d ds => simp [collapseWs, h]

theorem collapseWs_nonws_append :
    ∀ (t r : List Char), (∀ c ∈ t, jsWs c = false) →
      collapseWs (t ++ r) = t ++ collapseWs r := by
  intro t
  induction t with
  | nil => intro r _; rfl
  | cons x xs ih =>
    intro r h
    rw [List.cons_append, collapseWs_nonws_cons _ (h x (List.mem_cons_self x xs))]
    rw [ih r fun c hc => h c (List.mem_cons_of_mem x hc), List.cons_append]

theorem wsTokens_nil : wsTokens [] = [] := rfl

theorem wsTokens_cons (c : Char) (rest : List Char) :
    wsTokens (c :: rest) = joinTok c rest (wsTokens rest) := rfl

theorem wsTokens_ws_cons {c : Char} (rest : List Char) (h : jsWs c = true) :
    wsTokens (c :: rest) = wsTokens rest := by
  rw [wsTokens_cons]
  simp [joinTok, h]

theorem wsTokens_nonws_cons {c : Char} :
    ∀ (rest : List Char), jsWs c = false →
      wsTokens (c :: rest) =
        (c :: rest.takeWhile (fun d => !jsWs d)) ::
          wsTokens (rest.dropWhile (fun d => !jsWs d)) := by
  have main : ∀ (rest : List Char) (c : Char), jsWs c = false →
      wsTokens (c :: rest) =
        (c :: rest.takeWhile (fun d => !jsWs d)) ::
          wsTokens (rest.dropWhile (fun d => !jsWs d)) := by
    intro rest
    induction rest with
    | nil => intro c h; rw [wsTokens_cons]; simp [joinTok, h, wsTokens_nil]
    | cons d ds ih =>
      intro c h
      by_cases hd : jsWs d
      · have hstep : wsTokens (c :: d :: ds) = [c] :: wsTokens (d :: ds) := by
          rw [wsTokens_cons]
          simp [joinTok, h, hd]
        rw [hstep, List.takeWhile_cons, List.dropWhile_cons]
        simp [hd]
      · have hd2 : jsWs d = false := Bool.eq_false_iff.mpr hd
        have hih := ih d hd2
        have hstep : wsTokens (c :: d :: ds) =
            match wsTokens (d :: ds) with
            | [] => [[c]]
            | t :: ts2 => (c :: t) :: ts2 := by
          rw [wsTokens_cons]
          simp [joinTok, h, hd2]
        rw [hstep, hih, List.takeWhile_cons, List.dropWhile_cons]
        simp [hd2]
  intro rest h
  exact main rest c h

theorem wsTokens_dropWhile_ws : ∀ l : List Char, wsTokens (l.dropWhile jsWs) = wsTokens l := by
  intro l
  induction l with
  | nil => rfl
  | cons c rest ih =>
    by_cases h : jsWs c
    · rw [List.dropWhile_cons, if_pos h, ih, wsTokens_ws_cons rest h]
    · rw [List.dropWhile_cons, if_neg h]

theorem wsTokens_sound :
    ∀ (n : Nat) (l : List Char), l.length ≤ n →
      ∀ t ∈ wsTokens l, t ≠ [] ∧ ∀ c ∈ t, jsWs c = false := by
  intro n
  induction n with
  | zero =>
    intro l hl
    rw [List.length_eq_zero.mp (Nat.le_zero.mp hl), wsTokens_nil]
    intro t ht
    exact absurd ht (List.not_mem_nil t)
  | succ n ih =>
    intro l hl
    cases l with
    | nil =>
      rw [wsTokens_nil]; intro t ht; exact absurd ht (List.not_mem_nil t)
    | cons c rest =>
      have hrest : rest.length ≤ n := Nat.lt_succ_iff.mp (Nat.lt_of_lt_of_le (by simp) hl)
      by_cases h : jsWs c
      · rw [wsTokens_ws_cons rest h]
        exact ih rest hrest
      · have h2 : jsWs c = false := Bool.eq_false_iff.mpr h
        rw [wsTokens_nonws_cons rest h2]
        intro t ht
        rcases List.mem_cons.mp ht with h1 | h1
        · subst h1
          refine ⟨List.cons_ne_nil _ _, ?_⟩
          intro d hd
          rcases List.mem_cons.mp hd with h3 | h3
          · subst h3; exact h2
          · have := List.mem_takeWhile_imp h3
            simpa using this
        · exact ih (rest.dropWhile fun d => !jsWs d)
            (Nat.le_trans (length_dropWhile_le _ rest) hrest) t h1

theorem trimChars_ws_head_cons (c : Char) (x : List Char) (h : jsWs c = true) :
    trimChars (c :: x) = trimChars x := by
  rw [trimChars_eq_trimRight, trimChars_eq_trimRight, List.dropWhile_cons, if_pos h]

theorem trimChars_nonws_head (c : Char) (x : List Char) (h : jsWs c = false) :
    trimChars (c :: x) = trimRight (c :: x) := by
  rw [trimChars_eq_trimRight, dropWhile_cons_false h]

theorem trimRight_nil : trimRight [] = [] := rfl

theorem trimChars_append_token (t x : List Char)
    (ht : ∀ c ∈ t, jsWs c = false) (hne : t ≠ []) :
    trimChars (t ++ x) = t ++ trimRight x := by
  cases t with
  | nil => exact absurd rfl hne
  | cons c ts =>
    rw [List.cons_append,
      trimChars_nonws_head c (ts ++ x) (ht c (List.mem_cons_self c ts)),
      ← List.cons_append]
    unfold trimRight
    by_cases hx : x.reverse.dropWhile jsWs = []
    · have hxws : ∀ d ∈ x.reverse, jsWs d = true := List.dropWhile_eq_nil_iff.mp hx
      rw [List.reverse_append, dropWhile_append_sat _ _ hxws]
      have hrt : (c :: ts).reverse.dropWhile jsWs = (c :: ts).reverse := by
        cases hr : (c :: ts).reverse with
        | nil => simp
        | cons d ds =>
          have hd : d ∈ (c :: ts) := by
            rw [← List.mem_reverse, hr]; exact List.mem_cons_self d ds
          exact dropWhile_cons_false (ht d hd)
      rw [hrt, List.reverse_reverse, hx, List.reverse_nil, List.append_nil]
    · rw [List.reverse_append, dropWhile_append_ne_nil _ _ hx, List.reverse_append,
        List.reverse_reverse]

theorem trimRight_space_cons (y : List Char) (hy : y.reverse.dropWhile jsWs ≠ []) :
    trimRight (' ' :: y) = ' ' :: trimRight y := by
  unfold trimRight
  rw [List.reverse_cons, dropWhile_append_ne_nil _ _ hy, List.reverse_append]
  rfl

theorem normChars_eq_aux :
    ∀ (n : Nat) (l : List Char), l.length ≤ n →
      trimChars (collapseWs l) = joinSp (wsTokens l) := by
  intro n
  induction n with
  | zero =>
    intro l hl
    rw [List.length_eq_zero.mp (Nat.le_zero.mp hl), wsTokens_nil]
    rfl
  | succ n ih =>
    intro l hl
    cases l with
    | nil => rw [wsTokens_nil]; rfl
    | cons c rest =>
      have hrest : rest.length ≤ n := Nat.lt_succ_iff.mp (Nat.lt_of_lt_of_le (by simp) hl)
      by_cases h : jsWs c
      · rw [collapseWs_ws_cons rest c h, trimChars_ws_head_cons _ _ (by rfl : jsWs ' ' = true),
          ih _ (Nat.le_trans (length_dropWhile_le _ rest) hrest),
          wsTokens_dropWhile_ws, wsTokens_ws_cons rest h]
      · have h2 : jsWs c = false := Bool.eq_false_iff.mpr h
        have hsplit : c :: rest =
            (c :: rest.takeWhile fun d => !jsWs d) ++ rest.dropWhile fun d => !jsWs d := by
          rw [List.cons_append, List.takeWhile_append_dropWhile]
        have htok : ∀ d ∈ c :: rest.takeWhile fun d => !jsWs d, jsWs d = false := by
          intro d hd
          rcases List.mem_cons.mp hd with h1 | h1
          · subst h1; exact h2
          · have := List.mem_takeWhile_imp h1
            simpa using this
        rw [wsTokens_nonws_cons rest h2]
        conv_lhs => rw [hsplit]
        rw [collapseWs_nonws_append _ _ htok,
          trimChars_append_token _ _ htok (List.cons_ne_nil _ _)]
        cases hr : rest.dropWhile (fun d => !jsWs d) with
        | nil =>
          rw [wsTokens_nil]
          show (c :: rest.takeWhile fun d => !jsWs d) ++ ([] : List Char) =
            joinSp [c :: rest.takeWhile fun d => !jsWs d]
          rw [List.append_nil]
          rfl
        | cons w r2 =>
          have hw : jsWs w = true := by
            have := dropWhile_head_false (fun d => !jsWs d) rest w r2 hr
            simpa using this
          have hlenr2 : r2.length ≤ n := by
            have h1 : (w :: r2).length ≤ rest.length := by
              rw [← hr]; exact length_dropWhile_le _ rest
            have h3 : r2.length < rest.length := Nat.lt_of_lt_of_le (by simp) h1
            omega
          rw [collapseWs_ws_cons r2 w hw, wsTokens_ws_cons r2 hw, ← wsTokens_dropWhile_ws r2]
          cases hm : r2.dropWhile jsWs with
          | nil =>
            rw [wsTokens_nil]
            show (c :: rest.takeWhile fun d => !jsWs d) ++ trimRight [' '] =
              joinSp [c :: rest.takeWhile fun d => !jsWs d]
            rw [show trimRight [' '] = [] from rfl, List.append_nil]
            rfl
          | cons d m2 =>
            have hd : jsWs d = false := dropWhile_head_false jsWs r2 d m2 hm
            have hY : collapseWs (d :: m2) = d :: collapseWs m2 := collapseWs_nonws_cons m2 hd
            have hYrev : (collapseWs (d :: m2)).reverse.dropWhile jsWs ≠ [] := by
              intro hcon
              have hall := List.dropWhile_eq_nil_iff.mp hcon
              have hdmem : d ∈ (collapseWs (d :: m2)).reverse := by
                rw [hY, List.reverse_cons]
                exact List.mem_append.mpr (Or.inr (List.mem_singleton.mpr rfl))
              have hfalse := hall d hdmem
              rw [hd] at hfalse
              exact Bool.false_ne_true hfalse
            rw [trimRight_space_cons _ hYrev]
            have hmlen : (d :: m2).length ≤ n := by
              have h1 : (d :: m2).length ≤ r2.length := by
                rw [← hm]; exact length_dropWhile_le _ r2
              exact Nat.le_trans h1 hlenr2
            have htr : trimChars (collapseWs (d :: m2)) = trimRight (collapseWs (d :: m2)) := by
              rw [hY]
              exact trimChars_nonws_head d (collapseWs m2) hd
            have hih := ih (d :: m2) hmlen
            rw [htr] at hih
            rw [hih]
            have htokne : wsTokens (d :: m2) ≠ [] := by
              rw [wsTokens_nonws_cons m2 hd]
              exact List.cons_ne_nil _ _
            cases htk : wsTokens (d :: m2) with
            | nil => exact absurd htk htokne
            | cons u us =>
              rfl


theorem wsTokens_joinSp :
    ∀ ts : List (List Char), (∀ t ∈ ts, t ≠ [] ∧ ∀ c ∈ t, jsWs c = false) →
      wsTokens (joinSp ts) = ts := by
  intro ts
  induction ts with
  | nil => intro _; rfl
  | cons t ts ih =>
    intro h
    obtain ⟨hne, hnonws⟩ := h t (List.mem_cons_self t ts)
    cases t with
    | nil => exact absurd rfl hne
    | cons c t2 =>
      have hc : jsWs c = false := hnonws c (List.mem_cons_self c t2)
      have ht2 : ∀ d ∈ t2, jsWs d = false := fun d hd => hnonws d (List.mem_cons_of_mem c hd)
      have ht2b : ∀ d ∈ t2, (fun d => !jsWs d) d = true := by
        intro d hd
        simp [ht2 d hd]
      cases ts with
      | nil =>
        show wsTokens (c :: t2) = [c :: t2]
        rw [wsTokens_nonws_cons t2 hc, takeWhile_all_sat ht2b, dropWhile_all_sat ht2b,
          wsTokens_nil]
      | cons u us =>
        have hJ : joinSp ((c :: t2) :: u :: us) = (c :: t2) ++ ' ' :: joinSp (u :: us) := rfl
        rw [hJ, List.cons_append, wsTokens_nonws_cons _ hc,
          takeWhile_append_sat t2 (' ' :: joinSp (u :: us)) ht2b,
          dropWhile_append_sat t2 (' ' :: joinSp (u :: us)) ht2b]
        have h1 : (' ' :: joinSp (u :: us)).takeWhile (fun d => !jsWs d) = [] := by
          rw [List.takeWhile_cons]
          simp [show jsWs ' ' = true from rfl]
        have h2 : (' ' :: joinSp (u :: us)).dropWhile (fun d => !jsWs d) = ' ' :: joinSp (u :: us) :=
          dropWhile_cons_false (by simp [show jsWs ' ' = true from rfl])
        rw [h1, List.append_nil, h2, wsTokens_ws_cons _ (show jsWs ' ' = true from rfl),
          ih fun x hx => h x (List.mem_cons_of_mem _ hx)]

theorem normalizeTree_factor (x : String) :
    normalizeTree x = ⟨joinSp (wsTokens x.data)⟩ :=
  congrArg String.mk (normChars_eq_aux x.data.length x.data (Nat.le_refl _))

/-- C7: normalizeTree (collapse every whitespace run to one space, then trim
the ends) is idempotent, and any two strings with the same non-whitespace
runs at the same positions (wsTokens) normalize to the same string. -/
theorem normalizeTree_idem_and_ws_only :
    (∀ x : String, normalizeTree (normalizeTree x) = normalizeTree x) ∧
    (∀ x y : String, wsTokens x.data = wsTokens y.data →
      normalizeTree x = normalizeTree y) := by
  constructor
  · intro x
    rw [normalizeTree_factor x, normalizeTree_factor ⟨joinSp (wsTokens x.data)⟩]
    exact congrArg (fun ts => (⟨joinSp ts⟩ : String))
      (wsTokens_joinSp _ (wsTokens_sound x.data.length x.data (Nat.le_refl _)))
  · intro x y hxy
    rw [normalizeTree_factor x, normalizeTree_factor y, hxy]

/-- Witness for C7 at concrete inputs: idempotence at "a  b", and
" a b " normalizes like "a  b" since they differ only in whitespace. -/
theorem normalizeTree_idem_and_ws_only_witness :
    normalizeTree (normalizeTree "a  b") = normalizeTree "a  b" ∧
    normalizeTree " a b " = normalizeTree "a  b" :=
  ⟨normalizeTree_idem_and_ws_only.1 "a  b",
   normalizeTree_idem_and_ws_only.2 " a b " "a  b" (by decide)⟩

theorem strStartsWith_three_iff (m : Char) (l : List Char) :
    strStartsWith [m, m, m] l = true ↔ l.take 3 = [m, m, m] := by
  match l with
  | [] => simp [strStartsWith]
  | [a] => simp [strStartsWith]
  | [a, b] => simp [strStartsWith]
  | a :: b :: c :: rest =>
    simp [strStartsWith, List.take]
    tauto

/-- C9: a line is a section header exactly when its first three characters
are '=', an example header exactly when its first three characters are '-';
two-character markers are ordinary content and parse to nothing without
error, and a marker-only header line has the empty string as its name. -/
theorem line_classifier_spec :
    (∀ l : String, lineIsSectionHeader l = true ↔ l.data.take 3 = ['=', '=', '=']) ∧
    (∀ l : String, lineIsExampleHeader l = true ↔ l.data.take 3 = ['-', '-', '-']) ∧
    lineIsSectionHeader "==" = false ∧
    lineIsExampleHeader "--" = false ∧
    corpusParse "==\n--\nx" none = Except.ok [] ∧
    headerName '=' "===" = "" ∧
    headerName '-' "---" = "" := by
  refine ⟨fun l => strStartsWith_three_iff '=' l.data,
    fun l => strStartsWith_three_iff '-' l.data, ?_, ?_, ?_, ?_, ?_⟩ <;> rfl

/-- Witness for C9: the classifier accepts a real header line. -/
theorem line_classifier_spec_witness : lineIsSectionHeader "=== x" = true :=
  (line_classifier_spec.1 "=== x").mpr (by decide)

/-- C3: evaluation of parse on the Scenario A input (three-line header
block). The code yields two sections, both named "", with "simple" and
"a;" collected as descriptions and an example whose source is empty — not
one section named "simple" with source "a;". -/
theorem parse_sampleA :
    (corpusParse "===\nsimple\n===\n\na;\n\n---\n\n(a)" none).map
        (fun ss => ss.map fun s =>
          (s.name, s.metadata.description, s.examples.map fun e => (e.name, e.source, e.tree))) =
      Except.ok [("", "simple", []), ("", "a;", [("", "", "(a)")])] := by
  rfl

theorem step_no_headers_inert (fp : Option String) (i : Nat) (s : ParseState) (l : String)
    (hsec : s.currentSection = none) (hex : s.currentExample = none)
    (h1 : lineIsSectionHeader l = false) (h2 : lineIsExampleHeader l = false) :
    step fp i s l = .ok s := by
  have hd : appendDescription s l = s := by
    unfold appendDescription
    rw [hsec]
  unfold step
  rw [h1]
  simp only [Bool.false_eq_true, if_false, hd, h2, hex]

theorem runLines_no_headers (fp : Option String) :
    ∀ (ls : List String) (i : Nat) (s : ParseState),
      s.currentSection = none → s.currentExample = none →
      (∀ l ∈ ls, lineIsSectionHeader l = false ∧ lineIsExampleHeader l = false) →
      runLines fp i s ls = .ok s := by
  intro ls
  induction ls with
  | nil => intro i s _ _ _; rfl
  | cons l ls ih =>
    intro i s hsec hex h
    obtain ⟨h1, h2⟩ := h l (List.mem_cons_self l ls)
    unfold runLines
    rw [step_no_headers_inert fp i s l hsec hex h1 h2]
    exact ih (i + 1) s hsec hex fun x hx => h x (List.mem_cons_of_mem l hx)

/-- C6: a corpus text without any section or example header line parses to
zero sections (hence zero test records) without error; in particular the
empty text parses to the empty list. -/
theorem parse_no_headers_yields_nothing (content : String) (fp : Option String)
    (h : ∀ l ∈ linesOf content, lineIsSectionHeader l = false ∧ lineIsExampleHeader l = false) :
    corpusParse content fp = Except.ok [] := by
  unfold corpusParse corpusParseCall
  by_cases hc : content = ""
  · rw [if_pos hc]; rfl
  · rw [if_neg hc, runLines_no_headers fp (linesOf content) 0 (initState []) rfl rfl h]
    rfl

/-- Witness for C6 at a concrete header-free text (and the empty text via
the same theorem). -/
theorem parse_no_headers_witness :
    corpusParse "hello\nworld" none = Except.ok [] ∧ corpusParse "" none = Except.ok [] :=
  ⟨parse_no_headers_yields_nothing "hello\nworld" none (by decide),
   parse_no_headers_yields_nothing "" none (by decide)⟩

/-! ### The validator on a total engine: Pass/Fail partition -/

theorem validateExamples_total (eng : String → String) (sec : Section) :
    ∀ (exs : List Example) (acc : ValidationResults),
      validateExamples (fun s => .ok (eng s)) sec acc exs = .ok
        { passing := acc.passing ++
            ((exs.filter fun ex => normalizeTree (eng ex.source) == normalizeTree ex.tree).map
              (passEntryOf sec))
          failing := acc.failing ++
            ((exs.filter fun ex => !(normalizeTree (eng ex.source) == normalizeTree ex.tree)).map
              fun ex => failEntryOf sec ex (eng ex.source)) } := by
  intro exs
  induction exs with
  | nil =>
    intro acc
    simp [validateExamples]
  | cons ex rest ih =>
    intro acc
    by_cases h : normalizeTree (eng ex.source) = normalizeTree ex.tree
    · have hb : (normalizeTree (eng ex.source) == normalizeTree ex.tree) = true :=
        beq_iff_eq.mpr h
      have hstep : validateExamples (fun s => .ok (eng s)) sec acc (ex :: rest) =
          validateExamples (fun s => .ok (eng s)) sec
            { acc with passing := acc.passing ++ [passEntryOf sec ex] } rest := by
        simp [validateExamples, h]
      rw [hstep, ih]
      simp [List.filter_cons, hb]
    · have hb : (normalizeTree (eng ex.source) == normalizeTree ex.tree) = false := by
        simp [h]
      have hstep : validateExamples (fun s => .ok (eng s)) sec acc (ex :: rest) =
          validateExamples (fun s => .ok (eng s)) sec
            { acc with failing := acc.failing ++ [failEntryOf sec ex (eng ex.source)] } rest := by
        simp [validateExamples, h]
      rw [hstep, ih]
      simp [List.filter_cons, hb]

theorem validateSectionsAux_total (eng : String → String) :
    ∀ (secs : List Section) (acc : ValidationResults),
      validateSectionsAux (fun s => .ok (eng s)) acc secs = .ok
        { passing := acc.passing ++ (reportOf eng secs).passing
          failing := acc.failing ++ (reportOf eng secs).failing } := by
  intro secs
  induction secs with
  | nil =>
    intro acc
    simp [validateSectionsAux, reportOf, sectionExamplePairs]
  | cons sec rest ih =>
    intro acc
    have hex := validateExamples_total eng sec sec.examples acc
    have hstep : validateSectionsAux (fun s => .ok (eng s)) acc (sec :: rest) =
        validateSectionsAux (fun s => .ok (eng s))
          { passing := acc.passing ++
              ((sec.examples.filter fun ex =>
                normalizeTree (eng ex.source) == normalizeTree ex.tree).map (passEntryOf sec))
            failing := acc.failing ++
              ((sec.examples.filter fun ex =>
                !(normalizeTree (eng ex.source) == normalizeTree ex.tree)).map
                  fun ex => failEntryOf sec ex (eng ex.source)) } rest := by
      simp [validateSectionsAux, hex]
    rw [hstep, ih]
    simp only [reportOf, sectionExamplePairs, List.flatMap_cons, List.filter_append,
      List.map_append, List.filter_map, List.map_map, List.append_assoc]
    rfl

/-- C5: on a total engine, validateCorpus returns exactly the partition of
the (section, example) pairs by normalized equality — Pass iff
normalize(actual) = normalize(expected) — with each failing entry carrying
the un-normalized expected and actual strings and the record location; and
the concrete rendering "( a )" against expected "(a)" is a Fail, since
normalization collapses whitespace runs but keeps spaces next to
parentheses. -/
theorem validate_pass_iff_normalized_eq :
    (∀ (eng : String → String) (sections : List Section),
      validateCorpus (fun s => Except.ok (eng s)) sections =
        Except.ok (reportOf eng sections)) ∧
    (∀ (sec : Section) (ex : Example) (actual : String),
      (failEntryOf sec ex actual).expected = ex.tree ∧
      (failEntryOf sec ex actual).actual = actual ∧
      (failEntryOf sec ex actual).metadata.line = ex.metadata.line ∧
      (failEntryOf sec ex actual).metadata.filepath = sec.metadata.filepath) ∧
    normalizeTree "( a )" = "( a )" ∧
    normalizeTree "(a)" = "(a)" ∧
    validateCorpus (fun _ => Except.ok "( a )")
        [{ name := "s"
           examples := [{ name := "e", source := "a;", tree := "(a)"
                          metadata := { line := 3, inputCode := "a;", treeText := "(a)"
                                        separator := "---" } }]
           metadata := { filepath := none, header := "s", line := 1, headerText := "=== s ==="
                         description := "" } }] =
      Except.ok
        { passing := []
          failing := [{ sectionName := "s", exampleName := "e", expected := "(a)"
                        actual := "( a )"
                        metadata := { filepath := none, header := "s", line := 3
                                      headerText := "=== s ===", description := ""
                                      inputCode := "a;", treeText := "(a)"
                                      separator := "---" } }] } := by
  refine ⟨?_, ?_, rfl, rfl, ?_⟩
  · intro eng sections
    have h := validateSectionsAux_total eng sections { passing := [], failing := [] }
    simpa [validateCorpus] using h
  · intro sec ex actual
    exact ⟨rfl, rfl, rfl, rfl⟩
  · rfl

/-! ### The validator propagates engine faults -/

theorem validateExamples_ok_iff (g : String → Except EngineFault String) (sec : Section) :
    ∀ (exs : List Example) (acc : ValidationResults),
      (∃ r, validateExamples g sec acc exs = Except.ok r) ↔
        ∀ ex ∈ exs, ∃ t, g ex.source = Except.ok t := by
  intro exs
  induction exs with
  | nil =>
    intro acc
    simp [validateExamples]
  | cons ex rest ih =>
    intro acc
    cases hg : g ex.source with
    | error e =>
      have hrun : validateExamples g sec acc (ex :: rest) = Except.error e := by
        simp [validateExamples, hg]
      constructor
      · rintro ⟨r, hr⟩
        rw [hrun] at hr
        simp at hr
      · intro h
        obtain ⟨t, ht⟩ := h ex (List.mem_cons_self ex rest)
        rw [hg] at ht
        simp at ht
    | ok t =>
      have hrun : validateExamples g sec acc (ex :: rest) =
          validateExamples g sec
            (if normalizeTree t = normalizeTree ex.tree then
              { acc with passing := acc.passing ++ [passEntryOf sec ex] }
            else
              { acc with failing := acc.failing ++ [failEntryOf sec ex t] }) rest := by
        by_cases hn : normalizeTree t = normalizeTree ex.tree <;>
          simp [validateExamples, hg, hn]
      rw [hrun]
      constructor
      · intro hex x hx
        rcases List.mem_cons.mp hx with h1 | h1
        · subst h1
          exact ⟨t, hg⟩
        · exact (ih _).mp hex x h1
      · intro h
        exact (ih _).mpr fun x hx => h x (List.mem_cons_of_mem ex hx)

theorem validateSectionsAux_ok_iff (g : String → Except EngineFault String) :
    ∀ (secs : List Section) (acc : ValidationResults),
      (∃ r, validateSectionsAux g acc secs = Except.ok r) ↔
        ∀ sec ∈ secs, ∀ ex ∈ sec.examples, ∃ t, g ex.source = Except.ok t := by
  intro secs
  induction secs with
  | nil =>
    intro acc
    simp [validateSectionsAux]
  | cons sec rest ih =>
    intro acc
    cases hrun : validateExamples g sec acc sec.examples with
    | error e =>
      have hnone : ¬∃ t, validateExamples g sec acc sec.examples = Except.ok t := by
        rw [hrun]
        rintro ⟨t, ht⟩
        simp at ht
      have hbad : ¬∀ ex ∈ sec.examples, ∃ t, g ex.source = Except.ok t := by
        intro hall
        exact hnone ((validateExamples_ok_iff g sec sec.examples acc).mpr hall)
      have hstep : validateSectionsAux g acc (sec :: rest) = Except.error e := by
        simp [validateSectionsAux, hrun]
      constructor
      · rintro ⟨r, hr⟩
        rw [hstep] at hr
        simp at hr
      · intro h
        exact absurd (fun ex hx => h sec (List.mem_cons_self sec rest) ex hx) hbad
    | ok acc2 =>
      have hgood : ∀ ex ∈ sec.examples, ∃ t, g ex.source = Except.ok t :=
        (validateExamples_ok_iff g sec sec.examples acc).mp ⟨acc2, hrun⟩
      have hstep : validateSectionsAux g acc (sec :: rest) =
          validateSectionsAux g acc2 rest := by
        simp [validateSectionsAux, hrun]
      rw [hstep]
      constructor
      · intro hex x hx
        rcases List.mem_cons.mp hx with h1 | h1
        · subst h1
          exact hgood
        · exact (ih _).mp hex x h1
      · intro h
        exact (ih _).mpr fun x hx => h x (List.mem_cons_of_mem sec hx)

/-- C1 (amended): validateCorpus returns a Pass/Fail report exactly when
the grammar engine succeeds on every test record's source; an engine fault
for any record is not recorded as a Fail but propagates out of
validateCorpus as the run's result, aborting it. -/
theorem validateCorpus_ok_iff_engine_ok (g : String → Except EngineFault String)
    (sections : List Section) :
    (∃ r, validateCorpus g sections = Except.ok r) ↔
      ∀ sec ∈ sections, ∀ ex ∈ sec.examples, ∃ t, g ex.source = Except.ok t :=
  validateSectionsAux_ok_iff g sections { passing := [], failing := [] }

/-- Witness for the amended C1: a run whose engine never throws returns a
report. -/
theorem validateCorpus_ok_iff_engine_ok_witness :
    ∃ r, validateCorpus (fun s => Except.ok s) [] = Except.ok r :=
  (validateCorpus_ok_iff_engine_ok (fun s => Except.ok s) []).mpr (by simp)

/-- Counterexample to C1 as stated: an engine that throws on the first of
two records makes validateCorpus return the engine error — no Fail entry
is recorded and the second record is never evaluated — instead of a report
with an engine-error Fail. -/
theorem validateCorpus_engine_error_propagates :
    validateCorpus
        (fun s => if s = "a;" then Except.error (.fault "boom") else Except.ok "(b)")
        [{ name := "s"
           examples := [{ name := "e1", source := "a;", tree := "(a)"
                          metadata := { line := 3, inputCode := "a;", treeText := "(a)"
                                        separator := "---" } },
                        { name := "e2", source := "b;", tree := "(b)"
                          metadata := { line := 6, inputCode := "b;", treeText := "(b)"
                                        separator := "---" } }]
           metadata := { filepath := none, header := "s", line := 1, headerText := "=== s ==="
                         description := "" } }] =
      Except.error (.fault "boom") := by
  rfl

/-! ### The cleanup pass and the trim characterization -/

theorem corpusParse_eq_raw (content : String) (fp : Option String) :
    corpusParse content fp =
      (corpusParseRawSections content fp).map (List.map cleanupSection) := by
  unfold corpusParse corpusParseCall corpusParseRawSections
  by_cases hc : content = ""
  · simp [hc, Except.map]
  · simp only [hc, if_false]
    cases hr : runLines fp 0 (initState []) (linesOf content) with
    | error e => simp [Except.map]
    | ok fin => simp [Except.map]

/-- C2 (amended): every emitted example's source and tree are the raw
accumulated buffers passed through JavaScript String.trim. Trim removes
ALL leading and trailing whitespace — not only blank lines, but also the
indentation of the first non-blank line and trailing whitespace of the
last — while the interior is preserved verbatim: the trimmed string is a
contiguous segment of the buffer with only whitespace characters dropped
at either end, its first and last characters are non-whitespace, and
internal line breaks and internal indentation survive unchanged. -/
theorem example_strings_are_trimmed_buffers :
    (∀ (content : String) (fp : Option String),
      corpusParse content fp =
        (corpusParseRawSections content fp).map (List.map cleanupSection)) ∧
    (∀ e : Example, (cleanupExample e).source = jsTrim e.source ∧
      (cleanupExample e).tree = jsTrim e.tree) ∧
    (∀ s : String, ∃ a b, s.data = a ++ (jsTrim s).data ++ b ∧
      (∀ c ∈ a, jsWs c = true) ∧ (∀ c ∈ b, jsWs c = true)) ∧
    (∀ (s : String) (c : Char) (t : List Char),
      (jsTrim s).data = c :: t → jsWs c = false) ∧
    (∀ (s : String) (c : Char),
      (jsTrim s).data.getLast? = some c → jsWs c = false) ∧
    jsTrim "  a;\n b\n" = "a;\n b" := by
  refine ⟨corpusParse_eq_raw, ?_, ?_, ?_, ?_, rfl⟩
  · intro e
    exact ⟨rfl, rfl⟩
  · intro s
    exact trimChars_decomp s.data
  · intro s c t h
    exact trimChars_head_false s.data c t h
  · intro s c h
    exact trimChars_getLast_false s.data c h

/-- Witness for the amended C2 at concrete strings: trim output starts and
ends with non-whitespace. -/
theorem example_strings_are_trimmed_buffers_witness :
    jsWs 'x' = false ∧ jsWs 'y' = false :=
  ⟨example_strings_are_trimmed_buffers.2.2.2.1 " x " 'x' [] (by decide),
   example_strings_are_trimmed_buffers.2.2.2.2.1 " a y " 'y' (by decide)⟩

/-- Counterexample to C2 as stated: a source buffer whose only line has
leading indentation, "  a;\n", is emitted as "a;" — removing only leading
and trailing blank lines would give "  a;", so the leading whitespace of
the first non-blank line is not preserved. -/
theorem indentation_not_preserved :
    (corpusParse "===x\n---\n  a;\n(a)" none).map
        (fun ss => ss.map fun s => s.examples.map fun e => e.source) =
      Except.ok [["a;"]] ∧ ("a;" : String) ≠ "  a;" := by
  exact ⟨rfl, by decide⟩

/-! ### Instance-level accumulation across parse calls -/

theorem appendDescription_completed (s : ParseState) (l : String) :
    (appendDescription s l).completed = s.completed := by
  unfold appendDescription
  split
  · rfl
  · split
    · rfl
    · rfl

theorem appendDescription_none (s : ParseState) (l : String)
    (hsec : s.currentSection = none) : appendDescription s l = s := by
  unfold appendDescription
  rw [hsec]

theorem step_completed_extends (fp : Option String) (i : Nat) (s : ParseState) (l : String)
    (s2 : ParseState) (h : step fp i s l = .ok s2) :
    ∃ q, s2.completed = s.completed ++ q := by
  unfold step at h
  split at h
  · simp only [Except.ok.injEq] at h
    subst h
    exact ⟨_, rfl⟩
  · simp only [] at h
    split at h
    · split at h
      · split at h
        · simp at h
        · simp only [Except.ok.injEq] at h
          subst h
          exact ⟨[], by simp [appendDescription_completed]⟩
      · simp only [Except.ok.injEq] at h
        subst h
        exact ⟨[], by simp [appendDescription_completed]⟩
    · split at h
      · simp only [Except.ok.injEq] at h
        subst h
        exact ⟨[], by simp [appendDescription_completed]⟩
      · split at h
        · simp only [Except.ok.injEq] at h
          subst h
          exact ⟨[], by simp [appendDescription_completed]⟩
        · split at h
          · simp only [Except.ok.injEq] at h
            subst h
            exact ⟨[], by simp [appendDescription_completed]⟩
          · split at h
            · simp only [Except.ok.injEq] at h
              subst h
              exact ⟨[], by simp [appendDescription_completed]⟩
            · split at h
              · simp only [Except.ok.injEq] at h
                subst h
                exact ⟨[], by simp [appendDescription_completed]⟩
              · simp only [Except.ok.injEq] at h
                subst h
                exact ⟨[], by simp [appendDescription_completed]⟩

theorem runLines_completed_extends (fp : Option String) :
    ∀ (ls : List String) (i : Nat) (s s2 : ParseState),
      runLines fp i s ls = .ok s2 → ∃ q, s2.completed = s.completed ++ q := by
  intro ls
  induction ls with
  | nil =>
    intro i s s2 h
    simp only [runLines, Except.ok.injEq] at h
    subst h
    exact ⟨[], (List.append_nil _).symm⟩
  | cons l ls ih =>
    intro i s s2 h
    unfold runLines at h
    cases hs : step fp i s l with
    | error e =>
      rw [hs] at h
      simp at h
    | ok s1 =>
      rw [hs] at h
      obtain ⟨q1, hq1⟩ := step_completed_extends fp i s l s1 hs
      obtain ⟨q2, hq2⟩ := ih (i + 1) s1 s2 h
      exact ⟨q1 ++ q2, by rw [hq2, hq1, List.append_assoc]⟩

theorem finishSections_extends (s : ParseState) :
    ∃ t, finishSections s = s.completed ++ t := by
  unfold finishSections
  cases s.currentSection with
  | none => exact ⟨[], (List.append_nil _).symm⟩
  | some sec =>
    cases s.currentExample with
    | some ex => exact ⟨_, rfl⟩
    | none => exact ⟨[sec], rfl⟩

theorem cleanupExample_idem (e : Example) :
    cleanupExample (cleanupExample e) = cleanupExample e := by
  unfold cleanupExample
  simp [jsTrim_idem]

theorem cleanupSection_idem (sec : Section) :
    cleanupSection (cleanupSection sec) = cleanupSection sec := by
  unfold cleanupSection
  simp only [List.map_map, jsTrim_idem]
  congr 1
  have : cleanupExample ∘ cleanupExample = cleanupExample := by
    funext e
    exact cleanupExample_idem e
  rw [this]

theorem map_cleanupSection_idem (l : List Section) :
    (l.map cleanupSection).map cleanupSection = l.map cleanupSection := by
  rw [List.map_map]
  have : cleanupSection ∘ cleanupSection = cleanupSection := by
    funext sec
    exact cleanupSection_idem sec
  rw [this]

/-- C4 (amended): parse accumulates on the instance field this.sections:
for any first content A and any non-empty second content B, the list
returned by the second parse call begins with exactly the records returned
by the first call — the return value depends on the instance state, not on
the content argument alone. (For B = "", the early return yields [] and
drops the accumulated records; see the counterexample.) -/
theorem parse_accumulates_prior (A B : String) (fa fb : Option String)
    (p1 p2 : List Section × List Section)
    (hB : B ≠ "")
    (h1 : corpusParseCall [] fa A = Except.ok p1)
    (h2 : corpusParseCall p1.1 fb B = Except.ok p2) :
    p2.2.take p1.2.length = p1.2 := by
  have hp1 : p1.1 = p1.2 ∧ ∃ w : List Section, p1.2 = w.map cleanupSection := by
    unfold corpusParseCall at h1
    by_cases hA : A = ""
    · rw [if_pos hA] at h1
      simp only [Except.ok.injEq] at h1
      subst h1
      exact ⟨rfl, [], rfl⟩
    · rw [if_neg hA] at h1
      cases hr : runLines fa 0 (initState []) (linesOf A) with
      | error e =>
        rw [hr] at h1
        simp at h1
      | ok fin =>
        rw [hr] at h1
        simp only [Except.ok.injEq] at h1
        subst h1
        exact ⟨rfl, finishSections fin, rfl⟩
  obtain ⟨hpeq, w, hw⟩ := hp1
  unfold corpusParseCall at h2
  rw [if_neg hB] at h2
  cases hr : runLines fb 0 (initState p1.1) (linesOf B) with
  | error e =>
    rw [hr] at h2
    simp at h2
  | ok fin =>
    rw [hr] at h2
    simp only [Except.ok.injEq] at h2
    obtain ⟨qr, hq⟩ := runLines_completed_extends fb (linesOf B) 0 (initState p1.1) fin hr
    obtain ⟨t, ht⟩ := finishSections_extends fin
    have hall : finishSections fin = p1.1 ++ (qr ++ t) := by
      rw [ht, hq]
      show p1.1 ++ qr ++ t = p1.1 ++ (qr ++ t)
      rw [List.append_assoc]
    have hclean : p1.1.map cleanupSection = p1.2 := by
      rw [hpeq, hw, map_cleanupSection_idem]
    have hp2 : p2.2 = p1.2 ++ (qr ++ t).map cleanupSection := by
      rw [← h2]
      show (finishSections fin).map cleanupSection = p1.2 ++ (qr ++ t).map cleanupSection
      rw [hall, List.map_append, hclean]
    rw [hp2]
    exact List.take_left p1.2 ((qr ++ t).map cleanupSection)

/-- Witness for the amended C4: parsing "===\n---\n(a)" then "===" on the
same instance returns a two-section list whose first entry is the record
from the first call. -/
theorem parse_accumulates_prior_witness :
    ([{ name := "", examples := [{ name := "", source := "", tree := "(a)"
                                   metadata := { line := 2, inputCode := "", treeText := "(a)"
                                                 separator := "---" } }]
        metadata := { filepath := none, header := "", line := 1, headerText := "==="
                      description := "" } },
      { name := "", examples := []
        metadata := { filepath := none, header := "", line := 1, headerText := "==="
                      description := "" } }] : List Section).take
      ([{ name := "", examples := [{ name := "", source := "", tree := "(a)"
                                     metadata := { line := 2, inputCode := "", treeText := "(a)"
                                                   separator := "---" } }]
          metadata := { filepath := none, header := "", line := 1, headerText := "==="
                        description := "" } }] : List Section).length =
      [{ name := "", examples := [{ name := "", source := "", tree := "(a)"
                                    metadata := { line := 2, inputCode := "", treeText := "(a)"
                                                  separator := "---" } }]
         metadata := { filepath := none, header := "", line := 1, headerText := "==="
                       description := "" } }] :=
  parse_accumulates_prior "===\n---\n(a)" "===" none none _ _ (by decide) rfl rfl

/-- Counterexample to C4 as stated: with B the empty string, the second
parse call returns [] at once (the falsy-content guard) even though the
first call produced one record — the returned list does not contain the
records from A. -/
theorem parse_empty_second_call_forgets :
    ((corpusParseCall [] none "===\n---\n(a)").bind fun p1 =>
      (corpusParseCall p1.1 none "").map fun p2 => (p1.2.length, p2.2)) =
      Except.ok (1, ([] : List Section)) := by
  rfl

/-! ### Tree collection mode is monotonic within an example -/

theorem appendDescription_fields (s : ParseState) (l : String) :
    (appendDescription s l).currentExample = s.currentExample ∧
    (appendDescription s l).parsingSource = s.parsingSource ∧
    (appendDescription s l).parsingTree = s.parsingTree := by
  unfold appendDescription
  split
  · exact ⟨rfl, rfl, rfl⟩
  · split
    · exact ⟨rfl, rfl, rfl⟩
    · exact ⟨rfl, rfl, rfl⟩

theorem step_tree_mode (fp : Option String) (i : Nat) (s : ParseState) (l : String)
    (ex : Example)
    (hex : s.currentExample = some ex) (hps : s.parsingSource = false)
    (hpt : s.parsingTree = true)
    (h1 : lineIsSectionHeader l = false) (h2 : lineIsExampleHeader l = false) :
    ∃ s2 ex2, step fp i s l = .ok s2 ∧ s2.currentExample = some ex2 ∧
      s2.parsingSource = false ∧ s2.parsingTree = true ∧
      ex2.source = ex.source ∧
      ex2.tree = ex.tree ++ (if ex.source = "" ∧ jsTrim l = "" then "" else l ++ "\n") := by
  obtain ⟨hfex, hfps, hfpt⟩ := appendDescription_fields s l
  have hexa : (appendDescription s l).currentExample = some ex := by rw [hfex, hex]
  have hpsa : (appendDescription s l).parsingSource = false := by rw [hfps, hps]
  have hpta : (appendDescription s l).parsingTree = true := by rw [hfpt, hpt]
  unfold step
  rw [h1]
  simp only [Bool.false_eq_true, if_false]
  rw [h2]
  simp only [Bool.false_eq_true, if_false]
  rw [hexa]
  dsimp only
  by_cases hb : ex.source = "" ∧ jsTrim l = ""
  · rw [if_pos hb]
    refine ⟨appendDescription s l, ex, rfl, hexa, hpsa, hpta, rfl, ?_⟩
    rw [if_pos hb, String.append_empty]
  · rw [if_neg hb, hpsa]
    simp only [Bool.false_and, Bool.false_eq_true, if_false]
    rw [hpta]
    simp only [eq_self_iff_true, if_true]
    refine ⟨_, _, rfl, rfl, rfl, rfl, rfl, ?_⟩
    rw [if_neg hb]
    exact String.append_assoc ex.tree l "\n"

/-- C8 (amended): once an example is in tree collection mode, the mode
never reverts before the next header line: over any run of non-header
lines the source buffer never grows, and every line is appended to the
tree buffer with one exception — while the source buffer is empty, blank
lines are skipped entirely (not appended to the tree buffer either). -/
theorem tree_mode_monotonic (fp : Option String) :
    ∀ (ls : List String) (i : Nat) (s : ParseState) (ex : Example),
      s.currentExample = some ex → s.parsingSource = false → s.parsingTree = true →
      (∀ l ∈ ls, lineIsSectionHeader l = false ∧ lineIsExampleHeader l = false) →
      ∃ s2 ex2, runLines fp i s ls = .ok s2 ∧ s2.currentExample = some ex2 ∧
        s2.parsingSource = false ∧ s2.parsingTree = true ∧
        ex2.source = ex.source ∧
        ex2.tree = ex.tree ++ treeAppendLines ex.source ls := by
  intro ls
  induction ls with
  | nil =>
    intro i s ex hex hps hpt _
    exact ⟨s, ex, rfl, hex, hps, hpt, rfl, (String.append_empty _).symm⟩
  | cons l ls ih =>
    intro i s ex hex hps hpt h
    obtain ⟨hl1, hl2⟩ := h l (List.mem_cons_self l ls)
    obtain ⟨s1, ex1, hstep, hex1, hps1, hpt1, hsrc1, htree1⟩ :=
      step_tree_mode fp i s l ex hex hps hpt hl1 hl2
    obtain ⟨s2, ex2, hrun, hex2, hps2, hpt2, hsrc2, htree2⟩ :=
      ih (i + 1) s1 ex1 hex1 hps1 hpt1 fun x hx => h x (List.mem_cons_of_mem l hx)
    refine ⟨s2, ex2, ?_, hex2, hps2, hpt2, ?_, ?_⟩
    · unfold runLines
      rw [hstep]
      exact hrun
    · rw [hsrc2, hsrc1]
    · rw [htree2, htree1, hsrc1]
      show ex.tree ++ (if ex.source = "" ∧ jsTrim l = "" then "" else l ++ "\n") ++
          treeAppendLines ex.source ls =
        ex.tree ++ treeAppendLines ex.source (l :: ls)
      rw [String.append_assoc]
      rfl

/-- Witness for the amended C8: from a concrete tree-mode state with
non-empty source "a;", the blank line and the line "x" are both appended
to the tree buffer and the source stays "a;". -/
theorem tree_mode_monotonic_witness :
    (runLines none 0
        { completed := [], currentSection := none
          currentExample := some { name := "", source := "a;", tree := "(t)\n"
                                   metadata := { line := 1, inputCode := "", treeText := ""
                                                 separator := "---" } }
          parsingSource := false, parsingTree := true } ["", "x"]).map
        (fun s2 => s2.currentExample.map fun e => (e.source, e.tree)) =
      Except.ok (some ("a;", "(t)\n\nx\n")) := by
  obtain ⟨s2, ex2, hrun, hex2, _, _, hsrc, htree⟩ :=
    tree_mode_monotonic none ["", "x"] 0
      { completed := [], currentSection := none
        currentExample := some { name := "", source := "a;", tree := "(t)\n"
                                 metadata := { line := 1, inputCode := "", treeText := ""
                                               separator := "---" } }
        parsingSource := false, parsingTree := true }
      { name := "", source := "a;", tree := "(t)\n"
        metadata := { line := 1, inputCode := "", treeText := "", separator := "---" } }
      rfl rfl rfl (by decide)
  rw [hrun]
  simp only [Except.map, hex2]
  show Except.ok (some (ex2.source, ex2.tree)) = Except.ok (some ("a;", "(t)\n\nx\n"))
  rw [hsrc, htree]
  rfl

/-- Counterexample to C8 as stated: in "=== s\n---\n(a)\n\n(b)" the blank
line after "(a)" arrives in tree mode while the source buffer is empty, so
it is skipped — the emitted tree is "(a)\n(b)", not "(a)\n\n(b)" as
appending every subsequent line would give. -/
theorem blank_line_skipped_in_tree_mode :
    (corpusParse "=== s\n---\n(a)\n\n(b)" none).map
        (fun ss => ss.map fun s => s.examples.map fun e => e.tree) =
      Except.ok [["(a)\n(b)"]] ∧ ("(a)\n(b)" : String) ≠ "(a)\n\n(b)" :=
  ⟨rfl, by decide⟩

/-! ### The null-section dereference on a second example header -/

theorem headers_disjoint (l : String) (h : lineIsExampleHeader l = true) :
    lineIsSectionHeader l = false := by
  have htake := (strStartsWith_three_iff '-' l.data).mp h
  cases hs : lineIsSectionHeader l with
  | false => rfl
  | true =>
    have htake2 := (strStartsWith_three_iff '=' l.data).mp hs
    rw [htake] at htake2
    exact absurd htake2 (by decide)

theorem step_example_header_null_section (fp : Option String) (i : Nat) (s : ParseState)
    (l : String) (hsec : s.currentSection = none) (ex : Example)
    (hex : s.currentExample = some ex) (h2 : lineIsExampleHeader l = true) :
    step fp i s l = .error .typeError := by
  have h1 : lineIsSectionHeader l = false := headers_disjoint l h2
  unfold step
  rw [h1]
  simp only [Bool.false_eq_true, if_false]
  rw [appendDescription_none s l hsec]
  rw [h2]
  simp only [eq_self_iff_true, if_true]
  rw [hex, hsec]

theorem step_no_section (fp : Option String) (i : Nat) (s : ParseState) (l : String)
    (s2 : ParseState) (hsec : s.currentSection = none)
    (h1 : lineIsSectionHeader l = false) (hok : step fp i s l = .ok s2) :
    s2.currentSection = none ∧
    (s.currentExample.isSome = true → s2.currentExample.isSome = true) ∧
    (lineIsExampleHeader l = true → s2.currentExample.isSome = true) := by
  unfold step at hok
  rw [h1] at hok
  simp only [Bool.false_eq_true, if_false] at hok
  rw [appendDescription_none s l hsec] at hok
  split at hok
  · -- example header line
    rename_i hhdr
    split at hok
    · -- currentExample = some: match on currentSection = none gives an error
      rename_i ex hce
      rw [hsec] at hok
      simp at hok
    · -- currentExample = none: a fresh example is created
      rename_i hce
      simp only [Except.ok.injEq] at hok
      subst hok
      exact ⟨hsec, fun hs => by rw [hce] at hs; simp at hs, fun _ => rfl⟩
  · -- content line
    rename_i hhdr
    split at hok
    · -- currentExample = none: state unchanged
      rename_i hce
      simp only [Except.ok.injEq] at hok
      subst hok
      refine ⟨hsec, fun hs => hs, fun hh => absurd hh ?_⟩
      simpa using hhdr
    · -- currentExample = some ex: all branches keep an open example
      rename_i ex hce
      have hgoal : s2.currentSection = none ∧ s2.currentExample.isSome = true := by
        split at hok
        · simp only [Except.ok.injEq] at hok
          subst hok
          exact ⟨hsec, by rw [hce]; rfl⟩
        · split at hok
          · simp only [Except.ok.injEq] at hok
            subst hok
            exact ⟨hsec, rfl⟩
          · split at hok
            · simp only [Except.ok.injEq] at hok
              subst hok
              exact ⟨hsec, rfl⟩
            · split at hok
              · simp only [Except.ok.injEq] at hok
                subst hok
                exact ⟨hsec, rfl⟩
              · simp only [Except.ok.injEq] at hok
                subst hok
                exact ⟨hsec, by rw [hce]; rfl⟩
      refine ⟨hgoal.1, fun _ => hgoal.2, fun hh => absurd hh ?_⟩
      simpa using hhdr

theorem runLines_append (fp : Option String) :
    ∀ (as bs : List String) (i : Nat) (s : ParseState),
      runLines fp i s (as ++ bs) =
        match runLines fp i s as with
        | .error e => .error e
        | .ok s2 => runLines fp (i + as.length) s2 bs := by
  intro as
  induction as with
  | nil =>
    intro bs i s
    simp [runLines]
  | cons a as ih =>
    intro bs i s
    rw [List.cons_append]
    have hL : runLines fp i s (a :: (as ++ bs)) =
        match step fp i s a with
        | .error e => .error e
        | .ok s1 => runLines fp (i + 1) s1 (as ++ bs) := rfl
    have hR : runLines fp i s (a :: as) =
        match step fp i s a with
        | .error e => .error e
        | .ok s1 => runLines fp (i + 1) s1 as := rfl
    rw [hL, hR]
    cases hs : step fp i s a with
    | error e => rfl
    | ok s1 =>
      show runLines fp (i + 1) s1 (as ++ bs) =
        match runLines fp (i + 1) s1 as with
        | .error e => .error e
        | .ok s2 => runLines fp (i + (a :: as).length) s2 bs
      rw [ih bs (i + 1) s1]
      have hlen : i + 1 + as.length = i + (a :: as).length := by
        simp [List.length_cons]
        omega
      rw [hlen]

theorem runLines_sec_none (fp : Option String) :
    ∀ (ls : List String) (i : Nat) (s : ParseState),
      s.currentSection = none →
      (∀ l ∈ ls, lineIsSectionHeader l = false) →
      runLines fp i s ls = .error .typeError ∨
        ∃ s2, runLines fp i s ls = .ok s2 ∧ s2.currentSection = none := by
  intro ls
  induction ls with
  | nil =>
    intro i s hsec _
    exact Or.inr ⟨s, rfl, hsec⟩
  | cons l ls ih =>
    intro i s hsec h
    unfold runLines
    cases hs : step fp i s l with
    | error e =>
      cases e
      exact Or.inl rfl
    | ok s1 =>
      obtain ⟨hs1, -, -⟩ :=
        step_no_section fp i s l s1 hsec (h l (List.mem_cons_self l ls)) hs
      exact ih (i + 1) s1 hs1 fun x hx => h x (List.mem_cons_of_mem l hx)

theorem runLines_keep_example (fp : Option String) :
    ∀ (ls : List String) (i : Nat) (s : ParseState),
      s.currentSection = none → s.currentExample.isSome = true →
      (∀ l ∈ ls, lineIsSectionHeader l = false) →
      runLines fp i s ls = .error .typeError ∨
        ∃ s2, runLines fp i s ls = .ok s2 ∧ s2.currentSection = none ∧
          s2.currentExample.isSome = true := by
  intro ls
  induction ls with
  | nil =>
    intro i s hsec hex _
    exact Or.inr ⟨s, rfl, hsec, hex⟩
  | cons l ls ih =>
    intro i s hsec hex h
    unfold runLines
    cases hs : step fp i s l with
    | error e =>
      cases e
      exact Or.inl rfl
    | ok s1 =>
      obtain ⟨hs1, hkeep, -⟩ :=
        step_no_section fp i s l s1 hsec (h l (List.mem_cons_self l ls)) hs
      exact ih (i + 1) s1 hs1 (hkeep hex) fun x hx => h x (List.mem_cons_of_mem l hx)

/-- C10: parse is not total. If an example header line occurs before any
section header line and a second example header follows it, still before
any section header, then the open example is pushed onto the null current
section and parse throws a TypeError instead of returning a result. -/
theorem parse_example_header_before_section_throws
    (content : String) (fp : Option String)
    (xs ys zs : List String) (d1 d2 : String)
    (hsplit : linesOf content = xs ++ d1 :: (ys ++ d2 :: zs))
    (hd1 : lineIsExampleHeader d1 = true) (hd2 : lineIsExampleHeader d2 = true)
    (hxs : ∀ l ∈ xs, lineIsSectionHeader l = false)
    (hys : ∀ l ∈ ys, lineIsSectionHeader l = false) :
    corpusParse content fp = Except.error JSError.typeError := by
  have hcne : content ≠ "" := by
    intro hc
    subst hc
    have hone : linesOf "" = [""] := rfl
    rw [hone] at hsplit
    have hlen := congrArg List.length hsplit
    simp [List.length_append] at hlen
    omega
  have hrun : runLines fp 0 (initState []) (linesOf content) =
      Except.error JSError.typeError := by
    rw [hsplit, runLines_append]
    rcases runLines_sec_none fp xs 0 (initState []) rfl hxs with herr | ⟨s1, hok, hsec1⟩
    · rw [herr]
    · rw [hok]
      show runLines fp (0 + xs.length) s1 (d1 :: (ys ++ d2 :: zs)) =
        Except.error JSError.typeError
      have hL1 : runLines fp (0 + xs.length) s1 (d1 :: (ys ++ d2 :: zs)) =
          match step fp (0 + xs.length) s1 d1 with
          | .error e => .error e
          | .ok s2 => runLines fp (0 + xs.length + 1) s2 (ys ++ d2 :: zs) := rfl
      rw [hL1]
      cases hce : s1.currentExample with
      | some ex =>
        rw [step_example_header_null_section fp (0 + xs.length) s1 d1 hsec1 ex hce hd1]
      | none =>
        cases hstep : step fp (0 + xs.length) s1 d1 with
        | error e =>
          cases e
          rfl
        | ok s2 =>
          obtain ⟨hsec2, -, hex2⟩ :=
            step_no_section fp (0 + xs.length) s1 d1 s2 hsec1 (headers_disjoint d1 hd1) hstep
          show runLines fp (0 + xs.length + 1) s2 (ys ++ d2 :: zs) =
            Except.error JSError.typeError
          rw [runLines_append]
          rcases runLines_keep_example fp ys (0 + xs.length + 1) s2 hsec2 (hex2 hd1) hys with
            herr2 | ⟨s3, hok3, hsec3, hex3⟩
          · rw [herr2]
          · rw [hok3]
            show runLines fp (0 + xs.length + 1 + ys.length) s3 (d2 :: zs) =
              Except.error JSError.typeError
            have hL2 : runLines fp (0 + xs.length + 1 + ys.length) s3 (d2 :: zs) =
                match step fp (0 + xs.length + 1 + ys.length) s3 d2 with
                | .error e => .error e
                | .ok s4 => runLines fp (0 + xs.length + 1 + ys.length + 1) s4 zs := rfl
            rw [hL2]
            obtain ⟨ex3, hex3e⟩ := Option.isSome_iff_exists.mp hex3
            rw [step_example_header_null_section fp (0 + xs.length + 1 + ys.length) s3 d2
              hsec3 ex3 hex3e hd2]
  unfold corpusParse corpusParseCall
  rw [if_neg hcne, hrun]
  rfl

/-- Witness for C10: the two-line content "---\n---" makes parse throw. -/
theorem parse_example_header_before_section_throws_witness :
    corpusParse "---\n---" none = Except.error JSError.typeError :=
  parse_example_header_before_section_throws "---\n---" none [] [] [] "---" "---"
    rfl rfl rfl (by simp) (by simp)

end CorpusSpec
